import Mathlib

/-!
Verification of the ICVLPR license-plate recognition repository.

Shallow embedding of the parts of the code the claims concern:

* `src/metrics.py` — `LetterNumberRecognitionRate` (recognition-rate metric);
* `src/model/model.py` — `ICVLPR.__init__` / `ICVLPR.forward_global_context`;
* `src/model/stn.py` — `LocNet.__init__` / `LocNet.forward`;
* `src/hubconf.py` — `decoder` selection;
* `src/dataset/dataset.py` — `corpus_dict` / `labels_dict`;
* the CTC decoders (not present in the source tree; modelled from the spec).

Tensors are modelled over `ℚ` (exact rationals stand in for floats where
only algebraic structure matters) and `ℝ` where a transcendental function
(`tanh`) appears.  Machine floats' rounding is not modelled; every claim
settled here is about the algorithmic content of the code.
-/

namespace ICVLPR

/-! ## Metric: `LetterNumberRecognitionRate` (src/metrics.py)

A PyTorch tensor is modelled by its shape (`dims`) and its flattened
integer contents — the metric only ever calls `targets.dim()` and
`targets.tolist()`, so this is all the structure it consumes.  -/

structure PyTensor where
  dims : List ℕ
  flat : List ℤ
  deriving DecidableEq, Repr

/-- Row `i` of a rank-2 tensor, as produced by `targets.tolist()`. -/
def PyTensor.toRows (t : PyTensor) : List (List ℤ) :=
  (List.range (t.dims.getD 0 0)).map fun i =>
    (t.flat.drop (i * t.dims.getD 1 0)).take (t.dims.getD 1 0)

/-- Mutable state of `LetterNumberRecognitionRate`: the constructor
argument `blank` and the running counters `self.corrects`,
`self.lengths` (`__init__`, src/metrics.py lines 24-32). -/
structure RLNState where
  blank : ℤ
  corrects : ℕ
  lengths : ℕ
  deriving DecidableEq, Repr

/-- `LetterNumberRecognitionRate.__init__(blank)`: counters start at zero. -/
def rlnInit (blank : ℤ) : RLNState := ⟨blank, 0, 0⟩

/-- Removal of blank tokens from one target row
(`[token for token in sequence if token != self.blank]`). -/
def stripBlanks (blank : ℤ) (row : List ℤ) : List ℤ :=
  row.filter fun tok => tok ≠ blank

/-- The inner loop of `forward`: position-wise matches between a
prediction and a blank-stripped target, up to the shorter length
(`for pred, target in zip(pred_sequence, target_sequence)`). -/
def numCorrect (p t : List ℤ) : ℕ :=
  (p.zip t).countP fun ab => ab.1 = ab.2

/-- The outer loop of `forward`: accumulate `(corrects, lengths)` over
`zip(preds, aligned_targets)`. -/
def callCounts (blank : ℤ) (preds : List (List ℤ)) (rows : List (List ℤ)) : ℕ × ℕ :=
  (preds.zip (rows.map (stripBlanks blank))).foldl
    (fun acc pt => (acc.1 + numCorrect pt.1 pt.2, acc.2 + pt.2.length)) (0, 0)

/-- Per-call matched-symbol count, as a sum over the zipped batch. -/
def callCorrects (blank : ℤ) (preds : List (List ℤ)) (rows : List (List ℤ)) : ℕ :=
  ((preds.zip (rows.map (stripBlanks blank))).map fun pt => numCorrect pt.1 pt.2).sum

/-- Per-call stripped-target-length count, as a sum over the zipped batch. -/
def callLengths (blank : ℤ) (preds : List (List ℤ)) (rows : List (List ℤ)) : ℕ :=
  ((preds.zip (rows.map (stripBlanks blank))).map fun pt => pt.2.length).sum

/-- `LetterNumberRecognitionRate.forward(preds, targets)`
(src/metrics.py lines 34-70).  Returns the state after the call together
with the call's outcome.  The rank check raises before anything else; the
final `corrects / lengths` raises `ZeroDivisionError` *after* the
counters have been updated, exactly as in the Python source, where
`self.corrects += corrects; self.lengths += lengths` precede the
`return corrects / lengths`. -/
def rlnForward (st : RLNState) (preds : List (List ℤ)) (t : PyTensor) :
    RLNState × Except String ℚ :=
  if t.dims.length ≠ 2 then
    (st, .error "Expected a 2D tensor for target.")
  else
    let counts := callCounts st.blank preds t.toRows
    let st' : RLNState := ⟨st.blank, st.corrects + counts.1, st.lengths + counts.2⟩
    if counts.2 = 0 then (st', .error "division by zero")
    else (st', .ok ((counts.1 : ℚ) / (counts.2 : ℚ)))

/-- `LetterNumberRecognitionRate.result()` (src/metrics.py lines 72-73):
`self.corrects / self.lengths`, raising on a zero denominator. -/
def rlnResult (st : RLNState) : Except String ℚ :=
  if st.lengths = 0 then .error "division by zero"
  else .ok ((st.corrects : ℚ) / (st.lengths : ℚ))

/-- A sequence of successive `forward` calls, threading the state. -/
def runCalls (st : RLNState) (calls : List (List (List ℤ) × PyTensor)) : RLNState :=
  calls.foldl (fun s c => (rlnForward s c.1 c.2).1) st

/-! ### Helper lemmas on the metric -/

lemma callCounts_eq (blank : ℤ) (preds : List (List ℤ)) (rows : List (List ℤ)) :
    callCounts blank preds rows = (callCorrects blank preds rows, callLengths blank preds rows) := by
  unfold callCounts callCorrects callLengths
  generalize preds.zip (rows.map (stripBlanks blank)) = l
  induction l using List.reverseRecOn with
  | nil => rfl
  | append_singleton xs x ih =>
      rw [List.foldl_append, ih]
      simp [List.map_append]

lemma numCorrect_self (r : List ℤ) : numCorrect r r = r.length := by
  induction r with
  | nil => rfl
  | cons a rest ih => simp [numCorrect, List.zip, List.countP_cons] at ih ⊢

lemma numCorrect_nil (r : List ℤ) : numCorrect [] r = 0 := rfl

lemma numCorrect_eq_zero {p t : List ℤ} (h : ∀ ab ∈ p.zip t, ab.1 ≠ ab.2) :
    numCorrect p t = 0 := by
  unfold numCorrect
  rw [List.countP_eq_zero]
  intro ab hab
  simpa using h ab hab

lemma stripBlanks_eq_nil {blank : ℤ} {row : List ℤ} (h : ∀ x ∈ row, x = blank) :
    stripBlanks blank row = [] := by
  simp only [stripBlanks, List.filter_eq_nil_iff]
  intro a ha
  simpa using h a ha

lemma callCorrects_eq_zero_of_blank {blank : ℤ} {preds rows : List (List ℤ)}
    (hb : ∀ row ∈ rows, ∀ x ∈ row, x = blank) :
    callCorrects blank preds rows = 0 := by
  unfold callCorrects
  rw [List.sum_eq_zero]
  intro n hn
  rw [List.mem_map] at hn
  obtain ⟨pt, hpt, rfl⟩ := hn
  have h2 := (List.of_mem_zip hpt).2
  rw [List.mem_map] at h2
  obtain ⟨row, hrow, hrow2⟩ := h2
  rw [← hrow2, stripBlanks_eq_nil (hb row hrow)]
  simp [numCorrect]

lemma callLengths_eq_zero_of_blank {blank : ℤ} {preds rows : List (List ℤ)}
    (hb : ∀ row ∈ rows, ∀ x ∈ row, x = blank) :
    callLengths blank preds rows = 0 := by
  unfold callLengths
  rw [List.sum_eq_zero]
  intro n hn
  rw [List.mem_map] at hn
  obtain ⟨pt, hpt, rfl⟩ := hn
  have h2 := (List.of_mem_zip hpt).2
  rw [List.mem_map] at h2
  obtain ⟨row, hrow, hrow2⟩ := h2
  rw [← hrow2, stripBlanks_eq_nil (hb row hrow)]
  rfl

lemma zip_self {α : Type} (l : List α) : l.zip l = l.map fun x => (x, x) := by
  induction l with
  | nil => rfl
  | cons a rest ih => simp [List.zip, ih]

/-! ### Claim theorems on the metric -/

/-- Claim C6: `LetterNumberRecognitionRate.forward` raises the
rank-check `ValueError` — leaving the running counters untouched —
exactly when the target tensor is not rank-2.  (The only other failure,
the division-by-zero of claim C10, carries a different error and occurs
on rank-2 input only.) -/
theorem rln_rank2_check (st : RLNState) (preds : List (List ℤ)) (t : PyTensor) :
    rlnForward st preds t = (st, Except.error "Expected a 2D tensor for target.") ↔
      t.dims.length ≠ 2 := by
  constructor
  · intro h h2
    have h' := congrArg Prod.snd h
    rw [rlnForward, if_neg (by simpa using h2)] at h'
    dsimp only at h'
    split at h'
    · simp only [Except.error.injEq] at h'
      exact absurd h' (by decide)
    · simp at h'
  · intro h
    simp [rlnForward, h]

/-- Witness for C6: a rank-1 tensor is rejected with the state returned
unchanged. -/
theorem rln_rank2_check_witness :
    rlnForward (rlnInit 0) [[1]] ⟨[3], [1, 2, 3]⟩ =
      (rlnInit 0, Except.error "Expected a 2D tensor for target.") :=
  (rln_rank2_check (rlnInit 0) [[1]] ⟨[3], [1, 2, 3]⟩).mpr (by decide)

/-- Claim C10: the per-call division is unguarded — on any rank-2 target
batch whose rows consist entirely of blank tokens the call fails with a
division-by-zero error after the counter-update statements have run
(the update adds zero, so the returned state equals the input state) —
and `result()` likewise fails with division by zero whenever no
non-blank target has been accumulated (`lengths = 0`). -/
theorem rln_unguarded_division (st : RLNState) (preds : List (List ℤ)) (t : PyTensor)
    (h2 : t.dims.length = 2)
    (hb : ∀ row ∈ t.toRows, ∀ x ∈ row, x = st.blank) :
    rlnForward st preds t = (st, Except.error "division by zero") ∧
      ∀ st' : RLNState, st'.lengths = 0 → rlnResult st' = Except.error "division by zero" := by
  constructor
  · have hc := callCounts_eq st.blank preds t.toRows
    rw [callCorrects_eq_zero_of_blank hb, callLengths_eq_zero_of_blank hb] at hc
    simp [rlnForward, h2, hc]
  · intro st' h
    simp [rlnResult, h]

/-- Witness for C10: an all-blank two-row target triggers the
division-by-zero failure, and a fresh metric's `result()` fails too. -/
theorem rln_unguarded_division_witness :
    rlnForward (rlnInit 0) [[1]] ⟨[2, 2], [0, 0, 0, 0]⟩ =
        (rlnInit 0, Except.error "division by zero") ∧
      rlnResult (rlnInit 0) = Except.error "division by zero" := by
  have h := rln_unguarded_division (rlnInit 0) [[1]] ⟨[2, 2], [0, 0, 0, 0]⟩
    (by decide) (by decide)
  exact ⟨h.1, h.2 (rlnInit 0) rfl⟩

/-- Claim C4: on rank-2 targets with a non-zero blank-stripped total
length, the per-call value of the metric is the number of position-wise
matches (counted up to the shorter length, summed over the zipped batch)
divided by the total stripped target length; predictions equal to their
stripped targets give rate 1, predictions differing at every compared
position give rate 0, and an empty prediction contributes 0 matches
while its stripped target's full length is still counted. -/
theorem rln_forward_rate (st : RLNState) (preds : List (List ℤ)) (t : PyTensor)
    (h2 : t.dims.length = 2)
    (hl : callLengths st.blank preds t.toRows ≠ 0) :
    (rlnForward st preds t).2 =
        Except.ok ((callCorrects st.blank preds t.toRows : ℚ) /
          (callLengths st.blank preds t.toRows : ℚ)) ∧
      (preds = t.toRows.map (stripBlanks st.blank) → (rlnForward st preds t).2 = Except.ok 1) ∧
      ((∀ pt ∈ preds.zip (t.toRows.map (stripBlanks st.blank)), ∀ ab ∈ pt.1.zip pt.2, ab.1 ≠ ab.2) →
        (rlnForward st preds t).2 = Except.ok 0) ∧
      ∀ row : List ℤ, numCorrect [] row = 0 := by
  have hmain : (rlnForward st preds t).2 =
      Except.ok ((callCorrects st.blank preds t.toRows : ℚ) /
        (callLengths st.blank preds t.toRows : ℚ)) := by
    simp [rlnForward, h2, callCounts_eq, hl]
  refine ⟨hmain, ?_, ?_, fun row => rfl⟩
  · intro hp
    rw [hmain]
    have hcc : callCorrects st.blank preds t.toRows = callLengths st.blank preds t.toRows := by
      unfold callCorrects callLengths
      rw [hp, zip_self]
      simp only [List.map_map]
      refine congrArg List.sum (List.map_congr_left fun r _ => ?_)
      simp [numCorrect_self]
    rw [hcc, div_self (by exact_mod_cast hl)]
  · intro hd
    rw [hmain]
    have hcc : callCorrects st.blank preds t.toRows = 0 := by
      unfold callCorrects
      rw [List.sum_eq_zero]
      intro n hn
      rw [List.mem_map] at hn
      obtain ⟨pt, hpt, rfl⟩ := hn
      exact numCorrect_eq_zero (hd pt hpt)
    rw [hcc]
    simp

/-- Witness for C4: the worked example from the spec — target row
`[1, 2, 27, 0, 0]` stripped to length 3, prediction `[1, 2, 27]` —
yields rate `3/3 = 1`. -/
theorem rln_forward_rate_witness :
    (rlnForward (rlnInit 0) [[1, 2, 27]] ⟨[1, 5], [1, 2, 27, 0, 0]⟩).2 = Except.ok 1 :=
  (rln_forward_rate (rlnInit 0) [[1, 2, 27]] ⟨[1, 5], [1, 2, 27, 0, 0]⟩
    (by decide) (by decide)).2.1 (by decide)

lemma rlnForward_fst (st : RLNState) (preds : List (List ℤ)) (t : PyTensor)
    (h2 : t.dims.length = 2) :
    (rlnForward st preds t).1 =
      ⟨st.blank, st.corrects + callCorrects st.blank preds t.toRows,
        st.lengths + callLengths st.blank preds t.toRows⟩ := by
  rw [rlnForward, if_neg (by simpa using h2), callCounts_eq]
  dsimp only
  split <;> rfl

lemma runCalls_spec (b : ℤ) (calls : List (List (List ℤ) × PyTensor)) :
    ∀ st : RLNState, st.blank = b → (∀ c ∈ calls, c.2.dims.length = 2) →
      (runCalls st calls).blank = b ∧
      (runCalls st calls).corrects =
        st.corrects + (calls.map fun c => callCorrects b c.1 c.2.toRows).sum ∧
      (runCalls st calls).lengths =
        st.lengths + (calls.map fun c => callLengths b c.1 c.2.toRows).sum := by
  induction calls with
  | nil => intro st hb _; simp [runCalls, hb]
  | cons c rest ih =>
      intro st hb hr
      have h2 : c.2.dims.length = 2 := hr c (by simp)
      have hstep := rlnForward_fst st c.1 c.2 h2
      have htail : runCalls st (c :: rest) = runCalls (rlnForward st c.1 c.2).1 rest := rfl
      have hblank' : (rlnForward st c.1 c.2).1.blank = b := by rw [hstep]; exact hb
      obtain ⟨ihb, ihc, ihl⟩ :=
        ih ((rlnForward st c.1 c.2).1) hblank' (fun x hx => hr x (List.mem_cons_of_mem c hx))
      refine ⟨by rw [htail]; exact ihb, ?_, ?_⟩
      · rw [htail, ihc, hstep]
        simp [hb, Nat.add_assoc]
      · rw [htail, ihl, hstep]
        simp [hb, Nat.add_assoc]

/-- Claim C7: the metric's counters accumulate across successive calls —
starting from the freshly initialized state (the reset point of its
lifecycle, with both counters zero), after any sequence of rank-2 calls
the counters hold the per-call sums, `result()` returns cumulative
corrects over cumulative length, and each call's own return value is
independent of the counters already accumulated (it depends only on the
`blank` configuration and that call's arguments). -/
theorem rln_accumulation (b : ℤ) (calls : List (List (List ℤ) × PyTensor))
    (hr : ∀ c ∈ calls, c.2.dims.length = 2) :
    (runCalls (rlnInit b) calls).corrects =
        (calls.map fun c => callCorrects b c.1 c.2.toRows).sum ∧
      (runCalls (rlnInit b) calls).lengths =
        (calls.map fun c => callLengths b c.1 c.2.toRows).sum ∧
      ((calls.map fun c => callLengths b c.1 c.2.toRows).sum ≠ 0 →
        rlnResult (runCalls (rlnInit b) calls) =
          Except.ok (((calls.map fun c => callCorrects b c.1 c.2.toRows).sum : ℚ) /
            ((calls.map fun c => callLengths b c.1 c.2.toRows).sum : ℚ))) ∧
      ((rlnInit b).corrects = 0 ∧ (rlnInit b).lengths = 0) ∧
      ∀ (st₁ st₂ : RLNState) (preds : List (List ℤ)) (t : PyTensor),
        st₁.blank = st₂.blank →
        (rlnForward st₁ preds t).2 = (rlnForward st₂ preds t).2 := by
  obtain ⟨hblank, hc0, hl0⟩ := runCalls_spec b calls (rlnInit b) rfl hr
  have hc : (runCalls (rlnInit b) calls).corrects =
      (calls.map fun c => callCorrects b c.1 c.2.toRows).sum := by
    rw [hc0]; simp [rlnInit]
  have hl : (runCalls (rlnInit b) calls).lengths =
      (calls.map fun c => callLengths b c.1 c.2.toRows).sum := by
    rw [hl0]; simp [rlnInit]
  refine ⟨hc, hl, ?_, ⟨rfl, rfl⟩, ?_⟩
  · intro hne
    rw [rlnResult, if_neg (by rw [hl]; exact hne), hc, hl]
  · intro st₁ st₂ preds t hb
    by_cases hd : t.dims.length ≠ 2
    · simp [rlnForward, hd]
    · by_cases hz : (callCounts st₂.blank preds t.toRows).2 = 0
      · simp [rlnForward, hd, hb, hz]
      · simp [rlnForward, hd, hb, hz]

/-- Witness for C7: two calls accumulate to `corrects = 1`,
`lengths = 2`, so the cumulative rate is `1/2`. -/
theorem rln_accumulation_witness :
    rlnResult (runCalls (rlnInit 0) [([[1]], ⟨[1, 1], [1]⟩), ([[2]], ⟨[1, 1], [3]⟩)]) =
      Except.ok ((1 : ℚ) / 2) := by
  have h := rln_accumulation 0 [([[1]], ⟨[1, 1], [1]⟩), ([[2]], ⟨[1, 1], [3]⟩)] (by decide)
  have h3 := h.2.2.1 (by decide)
  have hcv : (([([[1]], (⟨[1, 1], [1]⟩ : PyTensor)), ([[2]], ⟨[1, 1], [3]⟩)].map
      fun c => callCorrects 0 c.1 c.2.toRows).sum) = 1 := by decide
  have hlv : (([([[1]], (⟨[1, 1], [1]⟩ : PyTensor)), ([[2]], ⟨[1, 1], [3]⟩)].map
      fun c => callLengths 0 c.1 c.2.toRows).sum) = 2 := by decide
  rw [hcv, hlv] at h3
  exact_mod_cast h3

/-! ## Model construction (src/model/model.py `ICVLPR.__init__`)

The backbone is the literal `nn.ModuleDict` of the source, encoded by
each stage's kind and channel arithmetic: convolutions and small basic
blocks set the channel count to their `out_channels`; batch norm, ReLU,
max-pooling and dropout preserve it. -/

inductive BackboneLayer
  | conv (cin cout : ℕ)
  | batchNorm (c : ℕ)
  | relu
  | maxPool
  | dropout
  | smallBasicBlock (cin cout : ℕ)
  deriving DecidableEq, Repr

def BackboneLayer.outChannels : BackboneLayer → ℕ → ℕ
  | .conv _ cout, _ => cout
  | .smallBasicBlock _ cout, _ => cout
  | .batchNorm _, c => c
  | .relu, c => c
  | .maxPool, c => c
  | .dropout, c => c

/-- The 14 backbone stages of `ICVLPR.__init__`
(`conv_1 … dropout_2`, src/model/model.py lines 33-48), in order. -/
def icvlprBackbone (inputChannels : ℕ) : List BackboneLayer :=
  [.conv inputChannels 64, .batchNorm 64, .relu, .maxPool,
   .smallBasicBlock 64 128, .maxPool,
   .smallBasicBlock 128 256, .smallBasicBlock 256 256, .maxPool,
   .dropout, .conv 256 256, .batchNorm 256, .relu, .dropout]

/-- Channel count of each entry of `backbone_outputs` in `ICVLPR.forward`. -/
def backboneOutputChannels (inputChannels : ℕ) : List ℕ :=
  ((icvlprBackbone inputChannels).scanl (fun c l => l.outChannels c) inputChannels).drop 1

structure ICVLPRConfig where
  numClasses : ℕ
  inputChannels : ℕ
  withStn : Bool
  withGc : Bool
  gcProjInChannels : ℕ
  gcProjOutChannels : ℕ
  deriving DecidableEq, Repr

/-- `ICVLPR.__init__(num_classes, input_channels, stn, gc)`: asserts
`input_channels in [1, 3]`, then builds the architecture, in which the
global-context projection layer is `nn.Conv2d(in_channels=960,
out_channels=256, kernel_size=1)` (src/model/model.py lines 57-61). -/
def constructICVLPR (numClasses inputChannels : ℕ) (stn gc : Bool) :
    Except String ICVLPRConfig :=
  if inputChannels = 1 ∨ inputChannels = 3 then
    .ok ⟨numClasses, inputChannels, stn, gc, 960, 256⟩
  else
    .error "ICVLPR input_channels must be either 1 or 3"

/-- Channel count of the tensor concatenated in
`forward_global_context`: entries 3, 4, 6, 7 of `backbone_outputs`
plus `backbone_outputs[-1]`. -/
def concatChannels (cfg : ICVLPRConfig) : ℕ :=
  (backboneOutputChannels cfg.inputChannels).getD 3 0 +
    (backboneOutputChannels cfg.inputChannels).getD 4 0 +
    (backboneOutputChannels cfg.inputChannels).getD 6 0 +
    (backboneOutputChannels cfg.inputChannels).getD 7 0 +
    (backboneOutputChannels cfg.inputChannels).getLastD 0

/-- Claim C3: no constructible model has a concatenated channel count
differing from the projection layer's expected input channels — every
configuration the constructor accepts satisfies
`64 + 128 + 256 + 256 + 256 = 960`, so a mismatch can never reach a
forward pass.  (Contrapositive form: a mismatched configuration is never
accepted at construction.  The source contains no explicit channel
assertion; the architecture is hard-wired so that the invariant holds
for every accepted configuration.) -/
theorem construct_channel_invariant :
    ∀ (numClasses inputChannels : ℕ) (stn gc : Bool) (cfg : ICVLPRConfig),
      constructICVLPR numClasses inputChannels stn gc = Except.ok cfg →
      concatChannels cfg = cfg.gcProjInChannels := by
  intro nc ic stn gc cfg h
  rw [constructICVLPR] at h
  split at h
  · rename_i hic
    cases h
    rcases hic with rfl | rfl <;> rfl
  · exact Except.noConfusion h

/-- Witness for C3: the default construction (37 classes, 3 input
channels) is accepted and satisfies the channel invariant. -/
theorem construct_channel_invariant_witness :
    concatChannels ⟨37, 3, true, true, 960, 256⟩ = (960 : ℕ) :=
  construct_channel_invariant 37 3 true true ⟨37, 3, true, true, 960, 256⟩ rfl

/-! ## Decoder selection (src/hubconf.py `decoder`) -/

inductive DecoderChoice
  | greedy
  | beam (beamWidth : ℕ)
  deriving DecidableEq, Repr

/-- `hubconf.decoder(decoder, beam_width)`: the assertion
`decoder in ["greedy", "beam"]` runs before either decoder object is
built (src/hubconf.py lines 43-59). -/
def decoderSelect (decoder : String) (beamWidth : ℕ) : Except String DecoderChoice :=
  if decoder = "greedy" ∨ decoder = "beam" then
    if decoder = "greedy" then .ok .greedy else .ok (.beam beamWidth)
  else
    .error "Decoder must either greedy or beam."

/-- Claim C8: configuration errors fail synchronously before any work —
`decoder(...)` errors exactly on kinds other than `greedy`/`beam`
(before any decoder is constructed), and `ICVLPR(...)` errors exactly on
input channel counts other than 1 and 3 (at construction). -/
theorem config_fail_fast :
    (∀ (kind : String) (beamWidth : ℕ),
        (∃ e, decoderSelect kind beamWidth = Except.error e) ↔
          ¬(kind = "greedy" ∨ kind = "beam")) ∧
      ∀ (numClasses inputChannels : ℕ) (stn gc : Bool),
        (∃ e, constructICVLPR numClasses inputChannels stn gc = Except.error e) ↔
          ¬(inputChannels = 1 ∨ inputChannels = 3) := by
  constructor
  · intro k w
    constructor
    · rintro ⟨e, he⟩ hk
      rw [decoderSelect, if_pos hk] at he
      split at he <;> exact Except.noConfusion he
    · intro hk
      exact ⟨_, by rw [decoderSelect, if_neg hk]⟩
  · intro nc ic stn gc
    constructor
    · rintro ⟨e, he⟩ hic
      rw [constructICVLPR, if_pos hic] at he
      exact Except.noConfusion he
    · intro hic
      exact ⟨_, by rw [constructICVLPR, if_neg hic]⟩

/-- Witness for C8: the unknown decoder kind `argmax` and the input
channel count 2 are both rejected. -/
theorem config_fail_fast_witness :
    (∃ e, decoderSelect "argmax" 5 = Except.error e) ∧
      ∃ e, constructICVLPR 37 2 true true = Except.error e :=
  ⟨(config_fail_fast.1 "argmax" 5).mpr (by decide),
   (config_fail_fast.2 37 2 true true).mpr (by decide)⟩

/-! ## Vocabulary (src/dataset/dataset.py `ICVLPDataset`) -/

/-- The class-level `corpus_dict` literal of `ICVLPDataset`
(src/dataset/dataset.py lines 11-15). -/
def corpusDict : List (String × ℕ) :=
  [("<BLANK>", 0),
   ("A", 1), ("B", 2), ("C", 3), ("D", 4), ("E", 5), ("F", 6), ("G", 7),
   ("H", 8), ("I", 9), ("J", 10), ("K", 11), ("L", 12), ("M", 13), ("N", 14),
   ("O", 15), ("P", 16), ("Q", 17), ("R", 18), ("S", 19), ("T", 20), ("U", 21),
   ("V", 22), ("W", 23), ("X", 24), ("Y", 25), ("Z", 26),
   ("1", 27), ("2", 28), ("3", 29), ("4", 30), ("5", 31), ("6", 32), ("7", 33),
   ("8", 34), ("9", 35), ("0", 36)]

/-- The reverse-mapping comprehension
`{v: k for k, v in corpus_dict.items()}`. -/
def deriveLabels (corpus : List (String × ℕ)) : List (ℕ × String) :=
  corpus.map fun p => (p.2, p.1)

def labelsDict : List (ℕ × String) := deriveLabels corpusDict

/-- `ICVLPDataset.__init__`'s corpus handling (lines 37-39): a supplied
`corpus_dict` replaces the default, and `labels_dict` is re-derived from
whichever forward mapping is in effect. -/
def datasetCorpusInit (override : Option (List (String × ℕ))) :
    List (String × ℕ) × List (ℕ × String) :=
  match override with
  | none => (corpusDict, labelsDict)
  | some c => (c, deriveLabels c)

/-- `targets.ne(0).sum(dim=1)` for one target row
(src/train.py line 317, `Trainer.calculate_loss`). -/
def targetLengthNe0 (row : List ℤ) : ℕ := row.countP fun x => x ≠ 0

/-- Claim C9: the default vocabulary has 37 symbols on pairwise distinct
indices, BLANK at index 0, no genuine plate character at index 0; hence
the zero-padded target length recovered by counting non-zero entries
(`targets.ne(0).sum`) equals the blank-stripped length for every row;
and `__init__` re-derives the reverse mapping from any supplied forward
mapping. -/
theorem corpus_invariants :
    corpusDict.length = 37 ∧
      (corpusDict.map Prod.snd).Nodup ∧
      corpusDict.lookup "<BLANK>" = some 0 ∧
      (∀ p ∈ corpusDict, p.1 ≠ "<BLANK>" → p.2 ≠ 0) ∧
      (∀ row : List ℤ, targetLengthNe0 row = (stripBlanks 0 row).length) ∧
      (∀ c : List (String × ℕ), datasetCorpusInit (some c) = (c, deriveLabels c)) ∧
      ∀ c : List (String × ℕ), ∀ p ∈ c, (p.2, p.1) ∈ (datasetCorpusInit (some c)).2 := by
  refine ⟨rfl, by decide, by decide, by decide, ?_, fun c => rfl, ?_⟩
  · intro row
    simp [targetLengthNe0, stripBlanks, List.countP_eq_length_filter]
  · intro c p hp
    exact List.mem_map_of_mem _ hp

/-- Witness for C9: the spec's worked alphabet — a row padded with zeros
has its length recovered by the non-zero count. -/
theorem corpus_invariants_witness :
    targetLengthNe0 [1, 2, 27, 0, 0] = (stripBlanks 0 [1, 2, 27, 0, 0]).length :=
  corpus_invariants.2.2.2.2.1 [1, 2, 27, 0, 0]

/-! ## Localization network initialization (src/model/stn.py `LocNet`)

`LocNet.__init__` zero-fills `fc2.weight` and copies
`[1, 0, 0, 0, 1, 0]` into `fc2.bias`; `LocNet.forward` computes
`theta = F.tanh(self.fc2(xs)).view(-1, 2, 3)`.  Because the weights are
zero, `fc2(xs)` equals the bias for *every* hidden activation `xs`, so
the initial theta is `tanh` applied entrywise to the identity affine
parameters — `tanh` here is the real hyperbolic tangent. -/

def locnetFc2Weight : List (List ℚ) := List.replicate 6 (List.replicate 32 0)

def locnetFc2Bias : List ℚ := [1, 0, 0, 0, 1, 0]

def dot (w h : List ℚ) : ℚ := ((w.zip h).map fun p => p.1 * p.2).sum

/-- A fully-connected layer `W x + b` (one output per bias entry). -/
def linearForward (W : List (List ℚ)) (b : List ℚ) (h : List ℚ) : List ℚ :=
  (List.range b.length).map fun i => dot (W.getD i []) h + b.getD i 0

/-- The theta emitted by `LocNet.forward` at construction-time weights,
as a function of the (arbitrary) hidden activation vector. -/
noncomputable def locnetTheta (hidden : List ℚ) : List ℝ :=
  (linearForward locnetFc2Weight locnetFc2Bias hidden).map fun q => Real.tanh (q : ℝ)

/-- The identity affine transform `[1, 0, 0, 0, 1, 0]`. -/
def identityAffine : List ℚ := [1, 0, 0, 0, 1, 0]

lemma dot_zero_left : ∀ (w : List ℚ), (∀ x ∈ w, x = 0) → ∀ h : List ℚ, dot w h = 0 := by
  intro w
  induction w with
  | nil => intro _ h; cases h <;> rfl
  | cons a rest ih =>
      intro hw h
      cases h with
      | nil => rfl
      | cons x hrest =>
          have ha : a = 0 := hw a (by simp)
          have := ih (fun y hy => hw y (by simp [hy])) hrest
          simp [dot] at this ⊢
          simp [ha, this]

lemma tanh_one_lt_one : Real.tanh 1 < 1 := by
  rw [Real.tanh_eq_sinh_div_cosh, div_lt_one (Real.cosh_pos 1)]
  exact Real.sinh_lt_cosh 1

lemma linearForward_locnet (hidden : List ℚ) :
    linearForward locnetFc2Weight locnetFc2Bias hidden = [1, 0, 0, 0, 1, 0] := by
  have hz : ∀ i : ℕ, dot ((locnetFc2Weight[i]?).getD []) hidden = 0 := by
    intro i
    refine dot_zero_left _ ?_ hidden
    intro x hx
    by_cases hi : i < locnetFc2Weight.length
    · rw [List.getElem?_eq_getElem hi] at hx
      simp only [Option.getD_some] at hx
      have hrow : locnetFc2Weight[i] = List.replicate 32 (0 : ℚ) :=
        List.eq_of_mem_replicate (List.getElem_mem hi)
      rw [hrow] at hx
      exact List.eq_of_mem_replicate hx
    · rw [List.getElem?_eq_none (Nat.le_of_not_lt hi)] at hx
      simp only [Option.getD_none] at hx
      cases hx
  simp [linearForward, locnetFc2Bias, List.range_succ, hz]

/-- Claim C1 (code bug): the construction invariant holds — `fc2.weight`
is all zeros and `fc2.bias` is the identity affine transform — but the
produced theta is *not* the identity for any input, because `forward`
applies `tanh` after `fc2`: the emitted theta is
`(tanh 1, 0, 0, 0, tanh 1, 0)` with `tanh 1 ≈ 0.7616 < 1`, so an
untrained rectifier is not a no-op. -/
theorem locnet_initial_theta_not_identity :
    (∀ row ∈ locnetFc2Weight, ∀ w ∈ row, w = 0) ∧
      locnetFc2Bias = identityAffine ∧
      ∀ hidden : List ℚ, locnetTheta hidden ≠ identityAffine.map fun q => (q : ℝ) := by
  refine ⟨by decide, rfl, ?_⟩
  intro hidden heq
  rw [locnetTheta, linearForward_locnet] at heq
  simp [identityAffine] at heq
  exact absurd heq (ne_of_lt tanh_one_lt_one)

/-! ## Global context fusion (src/model/model.py `forward_global_context`)

Feature maps are channel lists of rational-valued pixel grids.  The
projection layer `gc_depth_adjust_layer` (a learned 1×1 convolution +
batch norm + ReLU) is abstracted as an arbitrary function applied to the
concatenated tensor, exactly where the source applies it; the claims at
stake concern which tensors are pooled, which one is rescaled, and the
concatenation — all upstream of the projection. -/

abbrev Chan := List (List ℚ)
abbrev FMap := List Chan

/-- The cells of the adaptive-average-pooling window for output pixel
`(i, j)`, with PyTorch's window arithmetic
(`start = floor(i·H/oh)`, `end = ceil((i+1)·H/oh)`). -/
def poolCells (oh ow i j : ℕ) (c : Chan) : List ℚ :=
  (((c.drop (i * c.length / oh)).take
      (((i + 1) * c.length + oh - 1) / oh - i * c.length / oh)).map
    fun r => (r.drop (j * (c.headD []).length / ow)).take
      (((j + 1) * (c.headD []).length + ow - 1) / ow - j * (c.headD []).length / ow)).flatten

/-- `F.adaptive_avg_pool2d` on one channel. -/
def adaptiveAvgPool2dChan (oh ow : ℕ) (c : Chan) : Chan :=
  (List.range oh).map fun i =>
    (List.range ow).map fun j =>
      (poolCells oh ow i j c).sum / (poolCells oh ow i j c).length

/-- `F.adaptive_avg_pool2d` on a feature map (channel-wise). -/
def adaptiveAvgPool2d (oh ow : ℕ) (m : FMap) : FMap :=
  m.map (adaptiveAvgPool2dChan oh ow)

def fmapCells (m : FMap) : List ℚ := (m.map fun c => c.flatten).flatten

/-- `x.square().mean()` — the mean of the squares of all elements. -/
def meanSquare (m : FMap) : ℚ :=
  ((fmapCells m).map fun x => x * x).sum / ((fmapCells m).length : ℚ)

/-- `torch.div(x, x.square().mean())`. -/
def scaleByMeanSquare (m : FMap) : FMap :=
  m.map fun c => c.map fun r => r.map fun x => x / meanSquare m

/-- `torch.cat(..., dim=1)` — concatenation along the channel axis. -/
def catChannels (ms : List FMap) : FMap := ms.flatten

/-- `ICVLPR.forward_global_context(backbone_outputs)`
(src/model/model.py lines 81-93): pool entries 3, 4, 6, 7 of
`backbone_outputs` to `(3, 90)`, divide `backbone_outputs[-1]` by the
mean of its squares, concatenate, apply the projection layer. -/
def forwardGlobalContext (proj : FMap → FMap) (backboneOutputs : List FMap) : FMap :=
  let inputs := [backboneOutputs.getD 3 [], backboneOutputs.getD 4 [],
                 backboneOutputs.getD 6 [], backboneOutputs.getD 7 []]
  let outputs := inputs.map (adaptiveAvgPool2d 3 90)
  let scale5 := scaleByMeanSquare (backboneOutputs.getLastD [])
  proj (catChannels (outputs ++ [scale5]))

/-- The behavior claim C2 describes (from the spec's words, for
comparison with the source): pool *three* of the four selected maps and
the backbone's final map; divide the *deepest selected* map (entry 7) by
the mean of its squares; concatenate; project. -/
def specClaimGlobalContext (proj : FMap → FMap) (backboneOutputs : List FMap) : FMap :=
  let pooledSelected := [backboneOutputs.getD 3 [], backboneOutputs.getD 4 [],
                         backboneOutputs.getD 6 []].map (adaptiveAvgPool2d 3 90)
  let deepestScaled := scaleByMeanSquare (backboneOutputs.getD 7 [])
  let finalPooled := adaptiveAvgPool2d 3 90 (backboneOutputs.getLastD [])
  proj (catChannels (pooledSelected ++ [deepestScaled, finalPooled]))

/-- The amended description (what the source actually computes): pool
*all four* selected maps; the map divided by its squared mean is the
backbone's *final* output, not the deepest selected map. -/
def specAmendedGlobalContext (proj : FMap → FMap) (backboneOutputs : List FMap) : FMap :=
  let pool3 := adaptiveAvgPool2d 3 90 (backboneOutputs.getD 3 [])
  let pool4 := adaptiveAvgPool2d 3 90 (backboneOutputs.getD 4 [])
  let pool6 := adaptiveAvgPool2d 3 90 (backboneOutputs.getD 6 [])
  let pool7 := adaptiveAvgPool2d 3 90 (backboneOutputs.getD 7 [])
  let rescaledFinal := scaleByMeanSquare (backboneOutputs.getLastD [])
  proj (catChannels [pool3, pool4, pool6, pool7, rescaledFinal])

/-- A 1×1 single-channel map holding one value. -/
def gcUnitChan (v : ℚ) : Chan := [[v]]

/-- A `(3, 90)` single-channel map holding one constant value. -/
def gcFullChan (v : ℚ) : Chan := List.replicate 3 (List.replicate 90 v)

/-- A concrete 14-entry `backbone_outputs` list on which the source and
the claim's description disagree: the claim rescales entry 7 (all 2s,
squared mean 4, rescaled to 1/2) where the source pools it unchanged. -/
def gcOuts : List FMap :=
  [[], [], [], [gcUnitChan 1], [gcUnitChan 1], [], [gcUnitChan 1], [gcUnitChan 2],
   [], [], [], [], [], [gcFullChan 1]]

/-- Claim C2 as stated is false on the source: with the identity
projection and the concrete `backbone_outputs` above, the source's
fusion differs from the claimed pool-three-rescale-deepest fusion. -/
theorem global_context_spec_mismatch :
    forwardGlobalContext id gcOuts ≠ specClaimGlobalContext id gcOuts ∧
      gcOuts.length = 14 := by
  refine ⟨fun h => ?_, rfl⟩
  have h3 := congrArg (fun l => (l.getD 3 []).length) h
  have hc : ((forwardGlobalContext id gcOuts).getD 3 []).length = 3 := rfl
  have hs : ((specClaimGlobalContext id gcOuts).getD 3 []).length = 1 := rfl
  simp only [hc, hs] at h3
  exact absurd h3 (by decide)

/-- Claim C2 amended: for every projection function and every
`backbone_outputs` list, `forward_global_context` pools the four
selected maps (entries 3, 4, 6, 7) to the common `(3, 90)` size, divides
the backbone's final map elementwise by the mean of its squared values,
concatenates along the channel axis, and projects. -/
theorem global_context_forward_characterization :
    ∀ (proj : FMap → FMap) (backboneOutputs : List FMap),
      forwardGlobalContext proj backboneOutputs =
        specAmendedGlobalContext proj backboneOutputs :=
  fun _ _ => rfl

/-! ## CTC decoders (src/hubconf.py refers to a `decoder` module that is
not part of the source tree)

`GreedyCTCDecoder` and `BeamCTCDecoder` are constructed by
`src/hubconf.py` and used by `src/train.py`, but their module is absent
from the repository, so both are modelled from the spec (§4.6):

* greedy — per-time-step argmax followed by the standard CTC reduction
  (collapse consecutive repeats, drop BLANK);
* beam — a bounded candidate set ranked by cumulative probability; at
  each time step every candidate is extended by every class, candidates
  that reduce to the same collapsed sequence are merged by summing their
  probabilities (the highest-scoring raw path stands for the merged
  group), and the set is pruned to the top `beam_width`; the terminal
  output is the highest-scoring candidate's collapsed sequence.

A logit grid is a list of time-step rows, one score per class per row;
scores live in an arbitrary linearly ordered commutative ring, which
covers the spec's "raw probability scores" reading and keeps every
definition kernel-computable at `ℤ`. -/

/-- Collapse of consecutive duplicate classes. -/
def dedupAdjacent : List ℕ → List ℕ
  | [] => []
  | [a] => [a]
  | a :: b :: rest =>
      if a = b then dedupAdjacent (b :: rest) else a :: dedupAdjacent (b :: rest)

/-- Modelled from the spec: the CTC collapse rule shared by both
decoder variants — merge consecutive repeats, then drop BLANK. -/
def collapseCTC (blank : ℕ) (path : List ℕ) : List ℕ :=
  (dedupAdjacent path).filter fun c => c ≠ blank

def argmaxAux {α : Type} [LinearOrder α] (bv : α) (best i : ℕ) : List α → ℕ
  | [] => best
  | x :: xs => if bv < x then argmaxAux x i (i + 1) xs else argmaxAux bv best (i + 1) xs

/-- Modelled from the spec: index of the first maximal score in a row. -/
def argmaxIdx {α : Type} [LinearOrder α] : List α → ℕ
  | [] => 0
  | x :: xs => argmaxAux x 0 1 xs

/-- Modelled from the spec: the greedy CTC decoder — argmax at each
time step, then one application of the collapse rule. -/
def greedyDecode {α : Type} [LinearOrder α] (blank : ℕ) (grid : List (List α)) : List ℕ :=
  collapseCTC blank (grid.map argmaxIdx)

/-- A beam candidate: a raw per-time-step class path with its
cumulative probability. -/
abbrev Candidate (α : Type) := List ℕ × α

def insertDesc {α : Type} [LinearOrder α] (c : Candidate α) :
    List (Candidate α) → List (Candidate α)
  | [] => [c]
  | d :: rest => if d.2 < c.2 then c :: d :: rest else d :: insertDesc c rest

/-- Candidates sorted by descending score (insertion sort). -/
def sortDesc {α : Type} [LinearOrder α] (l : List (Candidate α)) : List (Candidate α) :=
  l.foldr insertDesc []

def firstDedupAux (seen : List (List ℕ)) : List (List ℕ) → List (List ℕ)
  | [] => []
  | k :: rest =>
      if k ∈ seen then firstDedupAux seen rest
      else k :: firstDedupAux (k :: seen) rest

/-- Distinct elements of a list, in order of first occurrence. -/
def firstDedup (l : List (List ℕ)) : List (List ℕ) := firstDedupAux [] l

/-- Total probability of all extensions that collapse to `k`. -/
def groupScore {α : Type} [LinearOrderedCommRing α] (blank : ℕ) (k : List ℕ)
    (exts : List (Candidate α)) : α :=
  ((exts.filter fun e => collapseCTC blank e.1 = k).map fun e => e.2).sum

/-- Highest-scoring raw path among the extensions collapsing to `k`. -/
def bestMember {α : Type} [LinearOrderedCommRing α] (blank : ℕ) (k : List ℕ)
    (exts : List (Candidate α)) : List ℕ :=
  ((sortDesc (exts.filter fun e => collapseCTC blank e.1 = k)).headD ([], 0)).1

/-- Modelled from the spec: merge candidates that reduce to the same
collapsed sequence, summing their probabilities. -/
def mergeCands {α : Type} [LinearOrderedCommRing α] (blank : ℕ)
    (exts : List (Candidate α)) : List (Candidate α) :=
  (firstDedup (exts.map fun e => collapseCTC blank e.1)).map fun k =>
    (bestMember blank k exts, groupScore blank k exts)

/-- Modelled from the spec: extend each candidate by every class. -/
def extendAll {α : Type} [LinearOrderedCommRing α] (row : List α)
    (cands : List (Candidate α)) : List (Candidate α) :=
  cands.flatMap fun c =>
    (List.range row.length).map fun k => (c.1 ++ [k], c.2 * row.getD k 0)

/-- Prune to the `width` highest-scoring candidates. -/
def pruneTop {α : Type} [LinearOrder α] (width : ℕ) (cands : List (Candidate α)) :
    List (Candidate α) :=
  (sortDesc cands).take width

/-- One beam-search time step: extend, merge, prune. -/
def beamStep {α : Type} [LinearOrderedCommRing α] (blank width : ℕ)
    (cands : List (Candidate α)) (row : List α) : List (Candidate α) :=
  pruneTop width (mergeCands blank (extendAll row cands))

/-- Modelled from the spec: the beam-search CTC decoder. -/
def beamDecode {α : Type} [LinearOrderedCommRing α] (blank width : ℕ)
    (grid : List (List α)) : List ℕ :=
  collapseCTC blank
    (((grid.foldl (beamStep blank width) [([], 1)]).headD ([], 0)).1)

/-- Claim C5 as stated is false on the spec's beam algorithm: on the
two-step grid below (scores `[2, 6, 2]` then `[3, 3, 4]`), merging the
blank- and repeat-extensions of the kept candidate (summed score
`6·3 + 6·3 = 36`) outscores the greedy argmax extension (`6·4 = 24`), so
`beam_width = 1` yields `[1]` while greedy yields `[1, 2]`. -/
theorem beam1_neq_greedy :
    beamDecode 0 1 [[(2 : ℤ), 6, 2], [3, 3, 4]] ≠
      greedyDecode 0 [[(2 : ℤ), 6, 2], [3, 3, 4]] := by decide

/-! ### Helper lemmas for beam search -/

lemma mem_insertDesc {α : Type} [LinearOrder α] (c x : Candidate α) :
    ∀ l : List (Candidate α), x ∈ insertDesc c l ↔ x = c ∨ x ∈ l := by
  intro l
  induction l with
  | nil => simp [insertDesc]
  | cons d rest ih =>
      rw [insertDesc]
      split
      · simp [or_comm, or_assoc, or_left_comm]
      · simp only [List.mem_cons, ih]
        tauto

lemma mem_sortDesc {α : Type} [LinearOrder α] (l : List (Candidate α)) (x : Candidate α) :
    x ∈ sortDesc l ↔ x ∈ l := by
  induction l with
  | nil => simp [sortDesc]
  | cons d rest ih =>
      show x ∈ insertDesc d (sortDesc rest) ↔ _
      rw [mem_insertDesc, ih]
      simp [eq_comm]

lemma sortDesc_strict_max {α : Type} [LinearOrder α] :
    ∀ (l : List (Candidate α)) (m : Candidate α), m ∈ l →
      (∀ x ∈ l, x ≠ m → x.2 < m.2) → ∃ tl, sortDesc l = m :: tl := by
  intro l
  induction l with
  | nil => intro m hm; cases hm
  | cons b rest ih =>
      intro m hm hlt
      have hsb : sortDesc (b :: rest) = insertDesc b (sortDesc rest) := rfl
      by_cases hb : b = m
      · subst hb
        cases hrest : sortDesc rest with
        | nil => exact ⟨[], by rw [hsb, hrest]; rfl⟩
        | cons y t' =>
            have hy : y ∈ rest := (mem_sortDesc rest y).mp (by rw [hrest]; simp)
            rw [hsb, hrest, insertDesc]
            by_cases hym : y = b
            · subst hym
              rw [if_neg (lt_irrefl _)]
              exact ⟨insertDesc y t', rfl⟩
            · have hlty : y.2 < b.2 := hlt y (List.mem_cons_of_mem b hy) hym
              rw [if_pos hlty]
              exact ⟨y :: t', rfl⟩
      · have hmr : m ∈ rest := by
          rcases List.mem_cons.mp hm with h | h
          · exact absurd h.symm hb
          · exact h
        obtain ⟨tl, htl⟩ :=
          ih m hmr fun x hx => hlt x (List.mem_cons_of_mem b hx)
        rw [hsb, htl, insertDesc]
        have hbm : b.2 < m.2 := hlt b (List.mem_cons_self b rest) hb
        rw [if_neg (not_lt.mpr (le_of_lt hbm))]
        exact ⟨insertDesc b tl, rfl⟩

lemma mem_firstDedupAux :
    ∀ (l seen : List (List ℕ)) (x : List ℕ),
      x ∈ firstDedupAux seen l ↔ x ∈ l ∧ x ∉ seen := by
  intro l
  induction l with
  | nil => intro seen x; simp [firstDedupAux]
  | cons k rest ih =>
      intro seen x
      rw [firstDedupAux]
      split
      · rename_i hk
        rw [ih]
        constructor
        · rintro ⟨hx, hs⟩
          exact ⟨List.mem_cons_of_mem _ hx, hs⟩
        · rintro ⟨hx, hs⟩
          rcases List.mem_cons.mp hx with rfl | hx'
          · exact absurd hk hs
          · exact ⟨hx', hs⟩
      · rename_i hk
        constructor
        · intro hx
          rcases List.mem_cons.mp hx with rfl | hx'
          · exact ⟨List.mem_cons_self x rest, hk⟩
          · obtain ⟨h1, h2⟩ := (ih (k :: seen) x).mp hx'
            exact ⟨List.mem_cons_of_mem _ h1,
              fun hs => h2 (List.mem_cons_of_mem _ hs)⟩
        · rintro ⟨hx, hs⟩
          rcases List.mem_cons.mp hx with rfl | hx'
          · exact List.mem_cons_self x _
          · by_cases hxk : x = k
            · subst hxk
              exact List.mem_cons_self x _
            · refine List.mem_cons_of_mem _ ((ih (k :: seen) x).mpr ⟨hx', ?_⟩)
              intro hxs
              rcases List.mem_cons.mp hxs with h | h
              · exact hxk h
              · exact hs h

lemma mem_firstDedup (l : List (List ℕ)) (x : List ℕ) :
    x ∈ firstDedup l ↔ x ∈ l := by
  rw [firstDedup, mem_firstDedupAux]
  simp

lemma argmaxAux_lt {α : Type} [LinearOrder α] :
    ∀ (l : List α) (bv : α) (best i : ℕ), best < i →
      argmaxAux bv best i l < i + l.length := by
  intro l
  induction l with
  | nil =>
      intro bv best i h
      rw [argmaxAux]
      simpa using h
  | cons x xs ih =>
      intro bv best i h
      rw [argmaxAux]
      simp only [List.length_cons]
      split
      · exact lt_of_lt_of_le (ih x i (i + 1) (Nat.lt_succ_self i)) (by omega)
      · exact lt_of_lt_of_le (ih bv best (i + 1) (Nat.lt_succ_of_lt h)) (by omega)

lemma argmaxIdx_lt_length {α : Type} [LinearOrder α] (l : List α) (hl : l ≠ []) :
    argmaxIdx l < l.length := by
  cases l with
  | nil => exact absurd rfl hl
  | cons x xs =>
      have h := argmaxAux_lt xs x 0 1 Nat.one_pos
      rw [argmaxIdx]
      simp only [List.length_cons]
      exact lt_of_lt_of_le h (by omega)

lemma sum_getD_range {α : Type} [AddCommMonoid α] :
    ∀ l : List α, ((List.range l.length).map fun c => l.getD c 0).sum = l.sum := by
  intro l
  induction l with
  | nil => rfl
  | cons x xs ih =>
      rw [List.length_cons, List.range_succ_eq_map, List.map_cons, List.map_map,
        List.sum_cons]
      have hfun : ((List.range xs.length).map ((fun c => (x :: xs).getD c 0) ∘ Nat.succ)) =
          (List.range xs.length).map fun c => xs.getD c 0 :=
        List.map_congr_left fun c _ => rfl
      rw [hfun, ih, List.sum_cons]
      rfl

lemma sum_filter_add_sum_filter_not_map {α β : Type} [AddCommMonoid α]
    (l : List β) (p : β → Bool) (f : β → α) :
    ((l.filter p).map f).sum + ((l.filter fun x => ! p x).map f).sum =
      (l.map f).sum := by
  induction l with
  | nil => simp
  | cons x rest ih =>
      by_cases hp : p x
      · simp [List.filter_cons, hp]
        rw [← ih]
        abel
      · simp [List.filter_cons, hp]
        rw [← ih]
        abel

lemma filter_range_eq (n a : ℕ) (ha : a < n) :
    (List.range n).filter (fun c => c = a) = [a] := by
  induction n with
  | zero => exact absurd ha (Nat.not_lt_zero a)
  | succ m ih =>
      rw [List.range_succ, List.filter_append]
      by_cases ham : a < m
      · rw [ih ham]
        have hm : (List.filter (fun c => decide (c = a)) [m]) = [] := by
          have hma : (decide (m = a)) = false := by
            simp only [decide_eq_false_iff_not]
            omega
          simp [List.filter, hma]
        rw [hm, List.append_nil]
      · have ham' : a = m := by omega
        subst ham'
        have h1 : (List.range a).filter (fun c => decide (c = a)) = [] := by
          rw [List.filter_eq_nil_iff]
          intro c hc
          have := List.mem_range.mp hc
          simp only [decide_eq_true_eq]
          omega
        rw [h1, List.nil_append]
        simp [List.filter]

/-- Pruning to width 1 after merging keeps exactly the dominant group,
represented by its strictly highest-scoring member. -/
lemma prune1_mergeCands {α : Type} [LinearOrderedCommRing α] (blank : ℕ)
    (exts : List (Candidate α)) (m : Candidate α)
    (hmem : m ∈ exts)
    (hub : ∀ x ∈ exts.filter fun e => collapseCTC blank e.1 = collapseCTC blank m.1,
      x ≠ m → x.2 < m.2)
    (hgrp : ∀ k, k ≠ collapseCTC blank m.1 →
      groupScore blank k exts < groupScore blank (collapseCTC blank m.1) exts) :
    pruneTop 1 (mergeCands blank exts) =
      [(m.1, groupScore blank (collapseCTC blank m.1) exts)] := by
  have hmem_members :
      m ∈ exts.filter fun e => collapseCTC blank e.1 = collapseCTC blank m.1 :=
    List.mem_filter.mpr ⟨hmem, by simp⟩
  obtain ⟨tl, htl⟩ := sortDesc_strict_max _ m hmem_members hub
  have hbest : bestMember blank (collapseCTC blank m.1) exts = m.1 := by
    rw [bestMember, htl]
    rfl
  have hkey_mem : collapseCTC blank m.1 ∈
      firstDedup (exts.map fun e => collapseCTC blank e.1) := by
    rw [mem_firstDedup]
    exact List.mem_map_of_mem _ hmem
  have hmE : (m.1, groupScore blank (collapseCTC blank m.1) exts) ∈ mergeCands blank exts := by
    rw [mergeCands]
    exact List.mem_map.mpr ⟨collapseCTC blank m.1, hkey_mem, by rw [hbest]⟩
  have hlt : ∀ x ∈ mergeCands blank exts,
      x ≠ (m.1, groupScore blank (collapseCTC blank m.1) exts) →
      x.2 < (m.1, groupScore blank (collapseCTC blank m.1) exts).2 := by
    intro x hx hne
    rw [mergeCands] at hx
    obtain ⟨k, hkmem, rfl⟩ := List.mem_map.mp hx
    by_cases hkka : k = collapseCTC blank m.1
    · subst hkka
      exact absurd (by rw [hbest]) hne
    · exact hgrp k hkka
  obtain ⟨tl2, htl2⟩ := sortDesc_strict_max _ _ hmE hlt
  rw [pruneTop, htl2]
  rfl

/-- Under per-step dominance (the argmax score strictly exceeds the sum
of all other scores) one beam step with width 1 keeps exactly the greedy
extension of the single kept candidate. -/
lemma beamStep_dominant {α : Type} [LinearOrderedCommRing α]
    (blank : ℕ) (row : List α) (g : List ℕ) (s : α) (hs : 0 < s)
    (hpos : ∀ x ∈ row, 0 < x)
    (hdom : row.sum < 2 * row.getD (argmaxIdx row) 0) :
    ∃ t : α, 0 < t ∧
      beamStep blank 1 [(g, s)] row = [(g ++ [argmaxIdx row], t)] := by
  have hrow_ne : row ≠ [] := by
    intro h
    rw [h] at hdom
    norm_num [argmaxIdx] at hdom
  have ha_lt : argmaxIdx row < row.length := argmaxIdx_lt_length row hrow_ne
  have hv_pos : ∀ c, c < row.length → 0 < row.getD c 0 := by
    intro c hc
    rw [List.getD_eq_getElem row 0 hc]
    exact hpos _ (List.getElem_mem hc)
  have hva_pos : 0 < row.getD (argmaxIdx row) 0 := hv_pos _ ha_lt
  have htot : ((List.range row.length).map fun c => row.getD c 0).sum = row.sum :=
    sum_getD_range row
  have hsplit := sum_filter_add_sum_filter_not_map (List.range row.length)
      (fun c => decide (c = argmaxIdx row)) (fun c => row.getD c 0)
  have hsingle : ((List.filter (fun c => decide (c = argmaxIdx row))
      (List.range row.length)).map fun c => row.getD c 0) =
        [row.getD (argmaxIdx row) 0] := by
    rw [filter_range_eq row.length (argmaxIdx row) ha_lt]
    rfl
  have hrest_lt : ((List.filter (fun c => ! decide (c = argmaxIdx row))
      (List.range row.length)).map fun c => row.getD c 0).sum <
        row.getD (argmaxIdx row) 0 := by
    rw [hsingle, htot] at hsplit
    simp only [List.sum_cons, List.sum_nil, add_zero] at hsplit
    linarith
  have hv_lt : ∀ c, c < row.length → c ≠ argmaxIdx row →
      row.getD c 0 < row.getD (argmaxIdx row) 0 := by
    intro c hc hca
    refine lt_of_le_of_lt ?_ hrest_lt
    apply List.single_le_sum
    · intro y hy
      obtain ⟨c', hc', rfl⟩ := List.mem_map.mp hy
      exact le_of_lt (hv_pos c' (List.mem_range.mp (List.mem_filter.mp hc').1))
    · refine List.mem_map_of_mem _ (List.mem_filter.mpr ⟨List.mem_range.mpr hc, ?_⟩)
      simp [hca]
  have hexts : extendAll row [(g, s)] =
      (List.range row.length).map fun c => (g ++ [c], s * row.getD c 0) := by
    simp [extendAll]
  have hmem_exts : ∀ e ∈ (List.range row.length).map
      fun c => ((g ++ [c], s * row.getD c 0) : Candidate α),
      ∃ c, c < row.length ∧ e = (g ++ [c], s * row.getD c 0) := by
    intro e he
    obtain ⟨c, hc, rfl⟩ := List.mem_map.mp he
    exact ⟨c, List.mem_range.mp hc, rfl⟩
  have hexts_pos : ∀ e ∈ (List.range row.length).map
      fun c => ((g ++ [c], s * row.getD c 0) : Candidate α), 0 < e.2 := by
    intro e he
    obtain ⟨c, hc, rfl⟩ := hmem_exts e he
    exact mul_pos hs (hv_pos c hc)
  -- the argmax extension is the strict maximum of its own merge group
  have hub : ∀ x ∈ ((List.range row.length).map
        fun c => ((g ++ [c], s * row.getD c 0) : Candidate α)).filter
        (fun e => collapseCTC blank e.1 =
          collapseCTC blank (g ++ [argmaxIdx row], s * row.getD (argmaxIdx row) 0).1),
      x ≠ (g ++ [argmaxIdx row], s * row.getD (argmaxIdx row) 0) →
        x.2 < (g ++ [argmaxIdx row], s * row.getD (argmaxIdx row) 0).2 := by
    intro x hx hne
    obtain ⟨c, hc, rfl⟩ := hmem_exts x (List.mem_filter.mp hx).1
    have hca : c ≠ argmaxIdx row := by
      intro h
      exact hne (by rw [h])
    exact mul_lt_mul_of_pos_left (hv_lt c hc hca) hs
  -- every other merge group scores strictly below the argmax group
  have hgrp : ∀ k, k ≠ collapseCTC blank (g ++ [argmaxIdx row]) →
      groupScore blank k ((List.range row.length).map
        fun c => ((g ++ [c], s * row.getD c 0) : Candidate α)) <
      groupScore blank (collapseCTC blank (g ++ [argmaxIdx row]))
        ((List.range row.length).map
          fun c => ((g ++ [c], s * row.getD c 0) : Candidate α)) := by
    intro k hk
    have hscore_ge : s * row.getD (argmaxIdx row) 0 ≤
        groupScore blank (collapseCTC blank (g ++ [argmaxIdx row]))
          ((List.range row.length).map fun c => (g ++ [c], s * row.getD c 0)) := by
      rw [groupScore]
      apply List.single_le_sum
      · intro y hy
        obtain ⟨e, he, rfl⟩ := List.mem_map.mp hy
        exact le_of_lt (hexts_pos e (List.mem_filter.mp he).1)
      · have hmem' : ((g ++ [argmaxIdx row], s * row.getD (argmaxIdx row) 0) : Candidate α) ∈
            ((List.range row.length).map fun c =>
              ((g ++ [c], s * row.getD c 0) : Candidate α)).filter
              (fun e => collapseCTC blank e.1 = collapseCTC blank (g ++ [argmaxIdx row])) := by
          refine List.mem_filter.mpr ⟨List.mem_map_of_mem _ (List.mem_range.mpr ha_lt), ?_⟩
          exact decide_eq_true rfl
        exact List.mem_map_of_mem (fun e => e.2) hmem'
    have hsub : List.Sublist
        ((((List.range row.length).map fun c =>
            ((g ++ [c], s * row.getD c 0) : Candidate α)).filter
          (fun e => collapseCTC blank e.1 = k)).map fun e => e.2)
        ((((List.range row.length).map fun c =>
            ((g ++ [c], s * row.getD c 0) : Candidate α)).filter
          (fun e => ! decide (collapseCTC blank e.1 =
            collapseCTC blank (g ++ [argmaxIdx row])))).map fun e => e.2) := by
      apply List.Sublist.map
      apply List.monotone_filter_right
      intro e he
      simp only [decide_eq_true_eq] at he
      simp only [Bool.not_eq_true', decide_eq_false_iff_not]
      rw [he]
      exact hk
    have hle : groupScore blank k ((List.range row.length).map
        fun c => ((g ++ [c], s * row.getD c 0) : Candidate α)) ≤
        ((((List.range row.length).map fun c =>
            ((g ++ [c], s * row.getD c 0) : Candidate α)).filter
          (fun e => ! decide (collapseCTC blank e.1 =
            collapseCTC blank (g ++ [argmaxIdx row])))).map fun e => e.2).sum := by
      rw [groupScore]
      apply List.Sublist.sum_le_sum hsub
      intro y hy
      obtain ⟨e, he, rfl⟩ := List.mem_map.mp hy
      exact le_of_lt (hexts_pos e (List.mem_filter.mp he).1)
    have htotE : (((List.range row.length).map fun c =>
        ((g ++ [c], s * row.getD c 0) : Candidate α)).map fun e => e.2).sum =
          s * row.sum := by
      rw [List.map_map]
      have hcomp : ((List.range row.length).map
          ((fun e : Candidate α => e.2) ∘ fun c => (g ++ [c], s * row.getD c 0))) =
          (List.range row.length).map fun c => s * row.getD c 0 :=
        List.map_congr_left fun c _ => rfl
      rw [hcomp, List.sum_map_mul_left, htot]
    have hsplitE := sum_filter_add_sum_filter_not_map
        ((List.range row.length).map fun c =>
          ((g ++ [c], s * row.getD c 0) : Candidate α))
        (fun e => decide (collapseCTC blank e.1 =
          collapseCTC blank (g ++ [argmaxIdx row])))
        (fun e => e.2)
    rw [htotE] at hsplitE
    have h2va : s * row.sum < 2 * (s * row.getD (argmaxIdx row) 0) := by
      have hmul := mul_lt_mul_of_pos_left hdom hs
      calc s * row.sum < s * (2 * row.getD (argmaxIdx row) 0) := hmul
        _ = 2 * (s * row.getD (argmaxIdx row) 0) := by ring
    simp only [groupScore] at hscore_ge hle ⊢
    linarith [hscore_ge, hle, hsplitE, h2va]
  have hstep := prune1_mergeCands blank
    ((List.range row.length).map fun c => ((g ++ [c], s * row.getD c 0) : Candidate α))
    (g ++ [argmaxIdx row], s * row.getD (argmaxIdx row) 0)
    (List.mem_map_of_mem _ (List.mem_range.mpr ha_lt)) hub hgrp
  refine ⟨groupScore blank (collapseCTC blank (g ++ [argmaxIdx row]))
      ((List.range row.length).map fun c => (g ++ [c], s * row.getD c 0)), ?_, ?_⟩
  · refine lt_of_lt_of_le (mul_pos hs hva_pos) ?_
    rw [groupScore]
    apply List.single_le_sum
    · intro y hy
      obtain ⟨e, he, rfl⟩ := List.mem_map.mp hy
      exact le_of_lt (hexts_pos e (List.mem_filter.mp he).1)
    · have hmem' : ((g ++ [argmaxIdx row], s * row.getD (argmaxIdx row) 0) : Candidate α) ∈
          ((List.range row.length).map fun c =>
            ((g ++ [c], s * row.getD c 0) : Candidate α)).filter
            (fun e => collapseCTC blank e.1 = collapseCTC blank (g ++ [argmaxIdx row])) := by
        refine List.mem_filter.mpr ⟨List.mem_map_of_mem _ (List.mem_range.mpr ha_lt), ?_⟩
        exact decide_eq_true rfl
      exact List.mem_map_of_mem (fun e => e.2) hmem'
  · rw [beamStep, hexts]
    exact hstep

lemma beam_fold_dominant {α : Type} [LinearOrderedCommRing α] (blank : ℕ) :
    ∀ (rows : List (List α)) (g : List ℕ) (s : α), 0 < s →
      (∀ row ∈ rows, ∀ x ∈ row, 0 < x) →
      (∀ row ∈ rows, row.sum < 2 * row.getD (argmaxIdx row) 0) →
      ∃ t : α, 0 < t ∧
        rows.foldl (beamStep blank 1) [(g, s)] = [(g ++ rows.map argmaxIdx, t)] := by
  intro rows
  induction rows with
  | nil =>
      intro g s hs _ _
      exact ⟨s, hs, by simp⟩
  | cons row rest ih =>
      intro g s hs hpos hdom
      obtain ⟨t1, ht1, hstep⟩ := beamStep_dominant blank row g s hs
        (hpos row (List.mem_cons_self row rest)) (hdom row (List.mem_cons_self row rest))
      obtain ⟨t2, ht2, hrest⟩ := ih (g ++ [argmaxIdx row]) t1 ht1
        (fun r hr => hpos r (List.mem_cons_of_mem _ hr))
        (fun r hr => hdom r (List.mem_cons_of_mem _ hr))
      refine ⟨t2, ht2, ?_⟩
      rw [List.foldl_cons, hstep, hrest]
      simp

/-- Claim C5 amended: the beam variant with `beam_width = 1` matches the
greedy variant on every logit grid of positive scores in which, at each
time step, the maximal score strictly exceeds the sum of all the other
scores of that step; it does *not* match on all logit grids (see the
counterexample), because merging collapse-equivalent extensions can make
a blank/repeat pair outscore the per-step argmax. -/
theorem beam1_eq_greedy_of_dominance {α : Type} [LinearOrderedCommRing α]
    (blank : ℕ) (grid : List (List α))
    (hpos : ∀ row ∈ grid, ∀ x ∈ row, 0 < x)
    (hdom : ∀ row ∈ grid, row.sum < 2 * row.getD (argmaxIdx row) 0) :
    beamDecode blank 1 grid = greedyDecode blank grid := by
  obtain ⟨t, ht, hfold⟩ := beam_fold_dominant blank grid [] 1 one_pos hpos hdom
  rw [beamDecode, hfold, greedyDecode]
  simp

/-- Witness for the amended C5: a two-step dominant grid on which
beam-1 equals greedy. -/
theorem beam1_eq_greedy_of_dominance_witness :
    beamDecode 0 1 [[(1 : ℤ), 5, 1], [1, 1, 7]] =
      greedyDecode 0 [[(1 : ℤ), 5, 1], [1, 1, 7]] :=
  beam1_eq_greedy_of_dominance 0 [[(1 : ℤ), 5, 1], [1, 1, 7]] (by decide) (by decide)

/-- Witness for C1: at the empty hidden activation the emitted theta
differs from the identity affine transform. -/
theorem locnet_initial_theta_not_identity_witness :
    locnetTheta [] ≠ identityAffine.map fun q => (q : ℝ) :=
  locnet_initial_theta_not_identity.2.2 []
